import Mathlib

set_option maxRecDepth 10000

/-!
Shallow embedding of the `commune` card-game engine (files `card.rs` and
`poker.rs`).  Rust `usize` arithmetic is modelled as `Nat` with explicit
wrapping modulo `2 ^ 64` where underflow or overflow can occur (release-mode
semantics); Rust `f64` probability arithmetic is modelled exactly over `ℚ`
(the divergences proved below are many orders of magnitude larger than any
`f64` rounding error); a Rust `HashSet<Card>` is modelled as `Finset Card`;
a panic (`unimplemented!()`) is modelled as `Option.none`.
-/

/-- Suits, in the declaration order of `card.rs` (the order of `Suit::iter`). -/
inductive Suit
  | Clubs
  | Spades
  | Hearts
  | Diamonds
deriving DecidableEq

/-- Ranks, in the declaration order of `card.rs` (the order of `Rank::iter`,
which is also the derived `Ord` order: Two < Three < … < Ace). -/
inductive Rank
  | Two
  | Three
  | Four
  | Five
  | Six
  | Seven
  | Eight
  | Nine
  | Ten
  | Jack
  | Queen
  | King
  | Ace
deriving DecidableEq

/-- The list produced by `Suit::iter()`. -/
def Suit.iter : List Suit := [.Clubs, .Spades, .Hearts, .Diamonds]

/-- The list produced by `Rank::iter()`. -/
def Rank.iter : List Rank :=
  [.Two, .Three, .Four, .Five, .Six, .Seven, .Eight, .Nine, .Ten, .Jack,
    .Queen, .King, .Ace]

/-- `Rank::to_u8`: the integer value 2..14 of a rank; this is also the order
used by the derived `Ord` instance on `Rank`. -/
def Rank.to_u8 : Rank → Nat
  | .Two => 2
  | .Three => 3
  | .Four => 4
  | .Five => 5
  | .Six => 6
  | .Seven => 7
  | .Eight => 8
  | .Nine => 9
  | .Ten => 10
  | .Jack => 11
  | .Queen => 12
  | .King => 13
  | .Ace => 14

/-- A card is a (suit, rank) pair, as in `card.rs`. -/
structure Card where
  suit : Suit
  rank : Rank
deriving DecidableEq

/-- `Card::get_all_with_rank`: the 4 cards of a given rank, one per suit. -/
def Card.get_all_with_rank (rank : Rank) : List Card :=
  Suit.iter.map fun suit => { suit, rank }

/-- The error type of `poker.rs`. -/
inductive PokerError
  | NotEnoughCards (msg : String)
  | InvalidArguments (msg : String)
deriving DecidableEq

/-- The `TwoPair` struct of `poker.rs` (fields as declared; the invariant
`top_rank > bottom_rank` is established by the smart constructor only). -/
structure TwoPair where
  top_rank : Rank
  bottom_rank : Rank
deriving DecidableEq

deriving instance DecidableEq for Except

/-- `TwoPair::new`: swaps the arguments so that `top_rank > bottom_rank`,
and rejects equal ranks. -/
def TwoPair.new (top_rank bottom_rank : Rank) : Except PokerError TwoPair :=
  if top_rank.to_u8 > bottom_rank.to_u8 then
    .ok { top_rank, bottom_rank }
  else if top_rank.to_u8 < bottom_rank.to_u8 then
    .ok { top_rank := bottom_rank, bottom_rank := top_rank }
  else
    .error (.InvalidArguments "Top rank and bottom rank cannot be equal.")

/-- `TwoPair::all_possible`: the cartesian product of ranks, filtered to
`top > bottom`, passed through the constructor. -/
def TwoPair.all_possible : List TwoPair :=
  (((Rank.iter.flatMap fun a => Rank.iter.map fun b => (a, b))).filter fun p =>
      decide (p.1.to_u8 > p.2.to_u8)).filterMap fun p =>
    (TwoPair.new p.1 p.2).toOption

/-- The `FullHouse` struct of `poker.rs`. -/
structure FullHouse where
  triple : Rank
  pair : Rank
deriving DecidableEq

/-- `FullHouse::new`: rejects equal ranks, performs no reordering. -/
def FullHouse.new (triple pair : Rank) : Except PokerError FullHouse :=
  if triple ≠ pair then
    .ok { triple, pair }
  else
    .error (.InvalidArguments "Top rank and bottom rank cannot be equal.")

/-- `FullHouse::all_possible`: all ordered pairs of distinct ranks. -/
def FullHouse.all_possible : List FullHouse :=
  (Rank.iter.flatMap fun a => Rank.iter.map fun b => (a, b)).filterMap fun p =>
    (FullHouse.new p.1 p.2).toOption

/-- The `HandValue` enum of `poker.rs`. -/
inductive HandValue
  | HighCard (rank : Rank)
  | OnePair (rank : Rank)
  | TwoPair (two_pair : TwoPair)
  | ThreeOfAKind (rank : Rank)
  | Straight (rank : Rank)
  | FullHouse (full_house : FullHouse)
  | FourOfAKind (rank : Rank)
deriving DecidableEq

/-- `HandValue::all_possible`: the seven per-variant enumerations flattened in
declaration order. -/
def HandValue.all_possible : List HandValue :=
  (Rank.iter.map HandValue.HighCard) ++
  (Rank.iter.map HandValue.OnePair) ++
  (TwoPair.all_possible.map HandValue.TwoPair) ++
  (Rank.iter.map HandValue.ThreeOfAKind) ++
  (Rank.iter.map HandValue.Straight) ++
  (FullHouse.all_possible.map HandValue.FullHouse) ++
  (Rank.iter.map HandValue.FourOfAKind)

/-- The `Hand` struct: a list of cards. -/
structure Hand where
  cards : List Card
deriving DecidableEq

/-- The `Deck` struct: a list of cards not yet dealt. -/
structure Deck where
  cards : List Card
deriving DecidableEq

/-- `Deck::full_deck_size`. -/
def Deck.full_deck_size : Nat := 52

/-- `Deck::deal_cards`: either an error (deck untouched) or the dealt hand
together with the shrunken deck.  `Vec::split_off(len - n)` keeps the first
`len - n` cards in the deck and hands back the last `n` in order. -/
def Deck.deal_cards (deck : Deck) (num_cards : Nat) :
    Except PokerError Hand × Deck :=
  if num_cards > deck.cards.length then
    (.error (.NotEnoughCards "Tried to deal more cards than in deck."), deck)
  else
    (.ok { cards := deck.cards.drop (deck.cards.length - num_cards) },
      { cards := deck.cards.take (deck.cards.length - num_cards) })

/-- The `Commune` struct: the pooled visible cards. -/
structure Commune where
  cards : List Card
deriving DecidableEq

/-- `Commune::contains_x_cards_of_rank`: fold over the four concrete cards of
the rank, counting those present in the commune, and compare with `x`. -/
def Commune.contains_x_cards_of_rank (commune : Commune) (x : Nat)
    (rank : Rank) : Bool :=
  let needed_cards := Card.get_all_with_rank rank
  let num_cards := needed_cards.foldl
    (fun acc card => acc + if commune.cards.contains card then 1 else 0) 0
  decide (num_cards ≥ x)

/-- `Commune::contains_straight`: slice `Rank::iter` at
`[to_u8 - 6 .. to_u8 - 1)` (the five ranks `top - 4 .. top`) and require one
card of each rank to be present.  Only reached with `top_rank ≥ Six`, so the
index arithmetic never underflows at its call site. -/
def Commune.contains_straight (commune : Commune) (top_rank : Rank) : Bool :=
  let top_rank_index := top_rank.to_u8
  let all_ranks := Rank.iter
  let ranks_in_straight :=
    (all_ranks.drop (top_rank_index - 6)).take
      ((top_rank_index - 1) - (top_rank_index - 6))
  let all_possible_cards_in_straight := ranks_in_straight.map
    Card.get_all_with_rank
  all_possible_cards_in_straight.all fun cards_in_rank =>
    cards_in_rank.any fun card => commune.cards.contains card

/-- Auxiliary weight used only to justify the recursion of
`Commune.contains_hand_value` (the `FullHouse` arm recurses on the
`ThreeOfAKind` and `OnePair` arms, as the Rust does). -/
def HandValue.weight : HandValue → Nat
  | .FullHouse _ => 1
  | _ => 0

/-- `Commune::contains_hand_value`, case for case from `poker.rs`. -/
def Commune.contains_hand_value (commune : Commune) (value : HandValue) :
    Bool :=
  match value with
  | .FourOfAKind rank => commune.contains_x_cards_of_rank 4 rank
  | .FullHouse full_house =>
      commune.contains_hand_value (.ThreeOfAKind full_house.triple) &&
      commune.contains_hand_value (.OnePair full_house.pair)
  | .Straight top_rank =>
      if top_rank.to_u8 < Rank.Six.to_u8 then false
      else commune.contains_straight top_rank
  | .ThreeOfAKind rank => commune.contains_x_cards_of_rank 3 rank
  | .TwoPair two_pair =>
      commune.contains_x_cards_of_rank 2 two_pair.top_rank &&
      commune.contains_x_cards_of_rank 2 two_pair.bottom_rank
  | .OnePair rank => commune.contains_x_cards_of_rank 2 rank
  | .HighCard rank => commune.contains_x_cards_of_rank 1 rank
termination_by value.weight
decreasing_by all_goals simp [HandValue.weight]

/-- The `usize` modulus. -/
def usizeMod : Nat := 2 ^ 64

/-- Rust release-mode `usize` subtraction (wraps on underflow). -/
def wrapping_sub (a b : Nat) : Nat :=
  (a % usizeMod + (usizeMod - b % usizeMod)) % usizeMod

/-- Product of a list of naturals with `usize` wrapping at each
multiplication, as `Iterator::product` computes it in release mode. -/
def wrapping_product : List Nat → Nat
  | [] => 1
  | x :: xs => (x * wrapping_product xs) % usizeMod

/-- `Hand::permutation`: the Rust `(n - k + 1..=n).product()` on `usize`
(note `n - k` wraps when `k > n`, and the range is empty when its wrapped
lower bound exceeds `n`). -/
def Hand.permutation (n k : Nat) : Nat :=
  wrapping_product (List.range' ((wrapping_sub n k + 1) % usizeMod)
    (n + 1 - (wrapping_sub n k + 1) % usizeMod))

/-- `itertools::combinations` in emission order: all `n`-element sublists of
the input, keeping the input order. -/
def combinations : Nat → List Card → List (List Card)
  | 0, _ => [[]]
  | _ + 1, [] => []
  | n + 1, x :: xs =>
      ((combinations n xs).map fun c => x :: c) ++ combinations (n + 1) xs

/-- One pass of the needed-set search of `Hand::get_needed_cards_for_rank_hand`
for each size `i` in the given list: collect every augmented hand (the hand
plus a size-`i` combination of missing rank cards) that satisfies the rank
count — note the Rust pushes `future_commune.cards`, i.e. the whole augmented
hand, into the result — and stop at the first size producing any hit. -/
def Hand.neededSetsAtSizes (cards : List Card) (size : Nat) (rank : Rank)
    (notInHand : List Card) : List Nat → List (Finset Card)
  | [] => []
  | i :: rest =>
      let hits := (combinations i notInHand).filterMap fun card_set =>
        let augmented := cards ++ card_set
        if (Commune.mk augmented).contains_x_cards_of_rank size rank then
          some augmented.toFinset
        else
          none
      if hits.isEmpty then
        Hand.neededSetsAtSizes cards size rank notInHand rest
      else
        hits

/-- `Hand::get_needed_cards_for_rank_hand`. -/
def Hand.get_needed_cards_for_rank_hand (hand : Hand) (size : Nat)
    (rank : Rank) : List (Finset Card) :=
  let notInHand := (Card.get_all_with_rank rank).filter fun c =>
    ! hand.cards.contains c
  Hand.neededSetsAtSizes hand.cards size rank notInHand
    (List.range (notInHand.length + 1))

/-- `Hand::get_needed_cards_for_hand_value`; the `TwoPair`, `Straight` and
`FullHouse` arms are `unimplemented!()` in the Rust and therefore panic,
modelled as `none`. -/
def Hand.get_needed_cards_for_hand_value (hand : Hand) :
    HandValue → Option (List (Finset Card))
  | .HighCard rank => some (hand.get_needed_cards_for_rank_hand 1 rank)
  | .OnePair rank => some (hand.get_needed_cards_for_rank_hand 2 rank)
  | .TwoPair _ => none
  | .ThreeOfAKind rank => some (hand.get_needed_cards_for_rank_hand 3 rank)
  | .Straight _ => none
  | .FullHouse _ => none
  | .FourOfAKind rank => some (hand.get_needed_cards_for_rank_hand 4 rank)

/-- `Hand::calculate_hand_probability`, with `f64` modelled as `ℚ`;
`none` models the panic propagated from the needed-cards computation. -/
def Hand.calculate_hand_probability (hand : Hand) (hand_value : HandValue)
    (other_cards_in_play : Nat) : Option ℚ :=
  let total_cards := wrapping_sub Deck.full_deck_size hand.cards.length
  match hand.get_needed_cards_for_hand_value hand_value with
  | none => none
  | some needed_card_sets =>
      let probability_of_each : List ℚ := needed_card_sets.map fun cards =>
        (Hand.permutation other_cards_in_play cards.card : ℚ) /
          (Hand.permutation total_cards cards.card : ℚ)
      let probability_of_none : ℚ :=
        (probability_of_each.map fun prob => 1 - prob).prod
      some (1 - probability_of_none)

/-- Short-circuiting collection of an iterator of fallible values, as Rust's
`collect` drives a panicking `map`: the first `none` aborts the whole list. -/
def collectOpt : List HandValue → (HandValue → Option ℚ) →
    Option (List (HandValue × ℚ))
  | [], _ => some []
  | v :: vs, f =>
      match f v with
      | none => none
      | some p => (collectOpt vs f).map fun rest => (v, p) :: rest

/-- `Hand::calculate_hand_value_probabilities`: one probability per element of
`HandValue::all_possible`, in order; `none` models the panic reached at the
first `TwoPair` entry. -/
def Hand.calculate_hand_value_probabilities (hand : Hand)
    (other_cards_in_play : Nat) : Option (List (HandValue × ℚ)) :=
  collectOpt HandValue.all_possible fun hand_value =>
    hand.calculate_hand_probability hand_value other_cards_in_play

/-! Helper lemmas about the wrapped arithmetic of `Hand.permutation`. -/

lemma usizeMod_eq : usizeMod = 18446744073709551616 := by norm_num [usizeMod]

lemma wrapping_product_eq (l : List Nat) :
    wrapping_product l = l.prod % usizeMod := by
  induction l with
  | nil =>
      simp only [wrapping_product, List.prod_nil]
      rw [Nat.mod_eq_of_lt (by rw [usizeMod_eq]; omega)]
  | cons x xs ih =>
      rw [wrapping_product, ih, List.prod_cons, Nat.mul_mod x, Nat.mod_mod_of_dvd _ dvd_rfl,
        ← Nat.mul_mod]

lemma wrapping_sub_eq_of_le {n k : Nat} (hn : n < usizeMod) (hk : k ≤ n) :
    wrapping_sub n k = n - k := by
  unfold wrapping_sub
  rw [Nat.mod_eq_of_lt hn, Nat.mod_eq_of_lt (show k < usizeMod by omega)]
  have h2 : n + (usizeMod - k) = usizeMod + (n - k) := by omega
  rw [h2, Nat.add_mod_left, Nat.mod_eq_of_lt (by omega)]

lemma wrapping_sub_eq_of_gt {n k : Nat} (hk : k < usizeMod) (h : n < k) :
    wrapping_sub n k = usizeMod - (k - n) := by
  unfold wrapping_sub
  rw [Nat.mod_eq_of_lt (show n < usizeMod by omega), Nat.mod_eq_of_lt hk]
  rw [Nat.mod_eq_of_lt (show n + (usizeMod - k) < usizeMod by omega)]
  omega

lemma permutation_lo_of_le {n k : Nat} (hn : n < usizeMod) (hk : k ≤ n)
    (h1 : n - k + 1 < usizeMod) :
    (wrapping_sub n k + 1) % usizeMod = n - k + 1 := by
  rw [wrapping_sub_eq_of_le hn hk, Nat.mod_eq_of_lt h1]

lemma range_prod_descFactorial :
    ∀ (k n : Nat), k ≤ n → (List.range' (n - k + 1) k).prod = Nat.descFactorial n k := by
  intro k
  induction k with
  | zero => intro n _; simp
  | succ k ih =>
      intro n hk
      have h1 : n - (k + 1) + 1 = n - k := by omega
      rw [h1, List.range', List.prod_cons]
      have h2 : n - k + 1 = (n - k) + 1 := rfl
      rw [h2, ih n (by omega), Nat.descFactorial_succ]

lemma permutation_eq_descFactorial {n k : Nat} (hn : n < usizeMod) (hk : k ≤ n)
    (h1 : n - k + 1 < usizeMod) :
    Hand.permutation n k = Nat.descFactorial n k % usizeMod := by
  unfold Hand.permutation
  rw [permutation_lo_of_le hn hk h1]
  have h2 : n + 1 - (n - k + 1) = k := by omega
  rw [h2, wrapping_product_eq, range_prod_descFactorial k n hk]

lemma permutation_succ_self {n : Nat} (hn : n + 1 < usizeMod) :
    Hand.permutation n (n + 1) = 0 := by
  unfold Hand.permutation
  rw [wrapping_sub_eq_of_gt hn (by omega)]
  have h2 : usizeMod - (n + 1 - n) + 1 = usizeMod := by have := usizeMod_eq; omega
  rw [h2, Nat.mod_self]
  have h4 : n + 1 - 0 = n + 1 := by omega
  rw [h4, List.range', wrapping_product]
  simp

lemma permutation_of_add_two_le {n k : Nat} (h2 : n + 2 ≤ k) (hk : k < usizeMod) :
    Hand.permutation n k = 1 := by
  unfold Hand.permutation
  rw [wrapping_sub_eq_of_gt hk (by omega)]
  rw [Nat.mod_eq_of_lt (show usizeMod - (k - n) + 1 < usizeMod by omega)]
  have h3 : n + 1 - (usizeMod - (k - n) + 1) = 0 := by omega
  rw [h3]
  rfl

lemma descFactorial_pos_of_le {n k : Nat} (h : k ≤ n) :
    0 < Nat.descFactorial n k := by
  rcases Nat.eq_zero_or_pos (Nat.descFactorial n k) with h0 | h0
  · rw [Nat.descFactorial_eq_zero_iff_lt] at h0; omega
  · exact h0

/-- C5: the claim states that `permutation(n, k)` is the falling factorial for
`k ≤ n` and `0` whenever `k > n`; but on `usize` the lower bound `n - k + 1`
wraps, so for `k ≥ n + 2` the range is empty and the product is `1`, not `0`:
`permutation(5, 7) = 1`. -/
theorem permutation_counterexample :
    Hand.permutation 5 7 = 1 ∧ Hand.permutation 5 7 ≠ Nat.descFactorial 5 7 ∧
      Nat.descFactorial 5 7 = 0 := by
  refine ⟨by decide, ?_, by decide⟩
  decide

lemma permutation_max_zero : Hand.permutation (usizeMod - 1) 0 = 0 := by
  have hW := usizeMod_eq
  unfold Hand.permutation
  rw [wrapping_sub_eq_of_le (by omega) (by omega)]
  have h1 : usizeMod - 1 - 0 + 1 = usizeMod := by omega
  rw [h1, Nat.mod_self]
  have h2 : usizeMod - 1 + 1 - 0 = (usizeMod - 1) + 1 := by omega
  rw [h2, List.range', wrapping_product]
  rw [Nat.zero_mul, Nat.zero_mod]

/-- C5 (amended): for `usize` inputs `n`, `k`: when `k ≤ n`, except at the
single corner `(n, k) = (2^64 − 1, 0)` (i.e. whenever `n − k + 1 < 2^64`),
`permutation(n, k)` equals the falling factorial `n·(n−1)·…·(n−k+1)` reduced
modulo `2^64` — exact whenever that product fits in `usize`, and in particular
`permutation(n, 0) = 1` for every `n < 2^64 − 1`; at the corner
`n = 2^64 − 1`, `k = 0` the wrapped lower bound `n − k + 1` overflows to `0`
and the result is `0`, not `1`; it equals `0` when `k = n + 1`; and it equals
`1` (not `0`) whenever `k ≥ n + 2`.  These four cases cover every `usize`
input. -/
theorem permutation_spec (n k : Nat) (hn : n < usizeMod) (hk : k < usizeMod) :
    (k ≤ n → n - k + 1 < usizeMod →
      Hand.permutation n k = Nat.descFactorial n k % usizeMod) ∧
    (k = 0 → n = usizeMod - 1 → Hand.permutation n k = 0) ∧
    (k = n + 1 → Hand.permutation n k = 0) ∧
    (n + 2 ≤ k → Hand.permutation n k = 1) := by
  refine ⟨fun h1 h2 => permutation_eq_descFactorial hn h1 h2,
    fun h1 h2 => ?_, fun h1 => ?_,
    fun h1 => permutation_of_add_two_le h1 hk⟩
  · subst h1; subst h2
    exact permutation_max_zero
  · subst h1
    exact permutation_succ_self hk

/-- Witness for C5's amended theorem, discharging the hypotheses of all four
cases at concrete inputs, including the overflow corner `(2^64 − 1, 0)`. -/
theorem permutation_spec_witness :
    Hand.permutation 5 2 = Nat.descFactorial 5 2 % usizeMod ∧
      Hand.permutation (usizeMod - 1) 0 = 0 ∧
      Hand.permutation 5 6 = 0 ∧ Hand.permutation 5 7 = 1 := by
  have hW := usizeMod_eq
  have h := permutation_spec 5 2 (by omega) (by omega)
  have h0 := permutation_spec (usizeMod - 1) 0 (by omega) (by omega)
  have h6 := permutation_spec 5 6 (by omega) (by omega)
  have h7 := permutation_spec 5 7 (by omega) (by omega)
  exact ⟨h.1 (by omega) (by omega), h0.2.1 rfl rfl, h6.2.2.1 rfl,
    h7.2.2.2 (by omega)⟩

/-! C1: the probability table computation panics. -/

lemma collectOpt_eq_none {l : List HandValue} {f : HandValue → Option ℚ}
    (x : HandValue) (hx : x ∈ l) (hfx : f x = none) : collectOpt l f = none := by
  induction l with
  | nil => cases hx
  | cons v vs ih =>
      rcases List.mem_cons.mp hx with h | h
      · subst h; simp [collectOpt, hfx]
      · cases hv : f v with
        | none => simp [collectOpt, hv]
        | some p => simp [collectOpt, hv, ih h]

/-- C1: contrary to the claim (and to the intent visible in the repository's
own test of the `Straight` needed-card computation), the probability table is
never produced: `calculate_hand_value_probabilities` maps
`calculate_hand_probability` over all 299 categories, and the needed-card
computation hits `unimplemented!()` (a panic, modelled as `none`) at every
`TwoPair`, `Straight` and `FullHouse` entry, so the call panics for every hand
and every `other_cards_in_play`. -/
theorem calculate_hand_value_probabilities_panics (hand : Hand) (m : Nat) :
    hand.calculate_hand_value_probabilities m = none := by
  unfold Hand.calculate_hand_value_probabilities
  exact collectOpt_eq_none (HandValue.TwoPair ⟨Rank.Three, Rank.Two⟩) (by decide) rfl

/-- C2: contrary to the claim (and to the repository's own test, which expects
an empty needed-set list here), a hand already holding all four Aces gets a
ONE-element needed-set list for `FourOfAKind(Ace)` — and the returned set is
the augmented hand itself, so it is not disjoint from the hand's cards (the
Rust pushes `future_commune.cards`, the whole augmented hand, instead of the
additional cards only). -/
theorem get_needed_cards_not_additional :
    (Hand.mk (Card.get_all_with_rank Rank.Ace)).get_needed_cards_for_rank_hand
        4 Rank.Ace =
      [(Card.get_all_with_rank Rank.Ace).toFinset] ∧
    (Hand.mk (Card.get_all_with_rank Rank.Ace)).get_needed_cards_for_rank_hand
        4 Rank.Ace ≠ [] ∧
    ((Card.get_all_with_rank Rank.Ace).toFinset ∩
        (Hand.mk (Card.get_all_with_rank Rank.Ace)).cards.toFinset).Nonempty := by
  refine ⟨by decide, by decide, ?_⟩
  decide

/-- C4: `deal_cards` fails with `NotEnoughCards` exactly when more cards are
requested than remain, leaving the deck unchanged; on success it removes and
returns the last `n` cards, the remaining deck and the dealt hand partition
the old deck contents in order, the lengths are `len − n` and `n`, and no
duplicates are introduced. -/
theorem deal_cards_spec (d : Deck) (n : Nat) :
    ((d.deal_cards n).1 =
        Except.error
          (PokerError.NotEnoughCards "Tried to deal more cards than in deck.") ↔
      d.cards.length < n) ∧
    (d.cards.length < n → (d.deal_cards n).2 = d) ∧
    (n ≤ d.cards.length →
      (d.deal_cards n).1 =
          Except.ok (Hand.mk (d.cards.drop (d.cards.length - n))) ∧
        (d.deal_cards n).2 = Deck.mk (d.cards.take (d.cards.length - n)) ∧
        (d.cards.drop (d.cards.length - n)).length = n ∧
        (d.cards.take (d.cards.length - n)).length = d.cards.length - n ∧
        d.cards.take (d.cards.length - n) ++
            d.cards.drop (d.cards.length - n) = d.cards ∧
        (d.cards.Nodup →
          (d.cards.take (d.cards.length - n) ++
              d.cards.drop (d.cards.length - n)).Nodup)) := by
  by_cases h : d.cards.length < n
  · have he : d.deal_cards n =
        (Except.error
          (PokerError.NotEnoughCards "Tried to deal more cards than in deck."),
          d) := by
      unfold Deck.deal_cards; rw [if_pos h]
    rw [he]
    exact ⟨⟨fun _ => h, fun _ => rfl⟩, fun _ => rfl,
      fun h2 => absurd h2 (by omega)⟩
  · have he : d.deal_cards n =
        (Except.ok (Hand.mk (d.cards.drop (d.cards.length - n))),
          Deck.mk (d.cards.take (d.cards.length - n))) := by
      unfold Deck.deal_cards; rw [if_neg h]
    rw [he]
    refine ⟨⟨fun hcontra => ?_, fun hlt => absurd hlt h⟩,
      fun hlt => absurd hlt h, fun _ => ⟨rfl, rfl, ?_, ?_, ?_, ?_⟩⟩
    · simp at hcontra
    · rw [List.length_drop]; omega
    · rw [List.length_take]; omega
    · exact List.take_append_drop _ _
    · intro hd; rw [List.take_append_drop]; exact hd

/-- Witness for C4 at a concrete two-card deck: dealing 1 succeeds with the
last card and dealing 3 fails leaving the deck unchanged. -/
theorem deal_cards_spec_witness :
    ((Deck.mk [⟨Suit.Clubs, Rank.Two⟩, ⟨Suit.Hearts, Rank.Three⟩]).deal_cards
          1).1 =
        Except.ok (Hand.mk [⟨Suit.Hearts, Rank.Three⟩]) ∧
      ((Deck.mk [⟨Suit.Clubs, Rank.Two⟩, ⟨Suit.Hearts, Rank.Three⟩]).deal_cards
            3).2 =
        Deck.mk [⟨Suit.Clubs, Rank.Two⟩, ⟨Suit.Hearts, Rank.Three⟩] := by
  constructor
  · exact ((deal_cards_spec
      (Deck.mk [⟨Suit.Clubs, Rank.Two⟩, ⟨Suit.Hearts, Rank.Three⟩]) 1).2.2
      (by decide)).1
  · exact (deal_cards_spec
      (Deck.mk [⟨Suit.Clubs, Rank.Two⟩, ⟨Suit.Hearts, Rank.Three⟩]) 3).2.1
      (by decide)

set_option maxHeartbeats 4000000 in
/-- C7: the enumerations have exactly the claimed sizes, are duplicate-free,
break down as 13 + 13 + 78 + 13 + 13 + 156 + 13 per variant, and no Straight
variant is filtered out — `Straight(r)` is present for every rank `r`,
including ranks below Six. -/
theorem all_possible_spec :
    HandValue.all_possible.length = 299 ∧
    HandValue.all_possible.Nodup ∧
    TwoPair.all_possible.length = 78 ∧
    TwoPair.all_possible.Nodup ∧
    FullHouse.all_possible.length = 156 ∧
    FullHouse.all_possible.Nodup ∧
    (HandValue.all_possible.countP fun v =>
      match v with | .HighCard _ => true | _ => false) = 13 ∧
    (HandValue.all_possible.countP fun v =>
      match v with | .OnePair _ => true | _ => false) = 13 ∧
    (HandValue.all_possible.countP fun v =>
      match v with | .TwoPair _ => true | _ => false) = 78 ∧
    (HandValue.all_possible.countP fun v =>
      match v with | .ThreeOfAKind _ => true | _ => false) = 13 ∧
    (HandValue.all_possible.countP fun v =>
      match v with | .Straight _ => true | _ => false) = 13 ∧
    (HandValue.all_possible.countP fun v =>
      match v with | .FullHouse _ => true | _ => false) = 156 ∧
    (HandValue.all_possible.countP fun v =>
      match v with | .FourOfAKind _ => true | _ => false) = 13 ∧
    (Rank.iter.all fun r =>
      decide ((HandValue.Straight r) ∈ HandValue.all_possible)) = true := by
  decide

deriving instance Fintype for Suit
deriving instance Fintype for Rank
deriving instance Fintype for Card

/-- Reference maximum of two ranks in the rank order, from the claim. -/
def specMaxRank (a b : Rank) : Rank := if b.to_u8 ≤ a.to_u8 then a else b

/-- Reference minimum of two ranks in the rank order, from the claim. -/
def specMinRank (a b : Rank) : Rank := if b.to_u8 ≤ a.to_u8 then b else a

set_option maxHeartbeats 2000000 in
/-- C8: `TwoPair::new(a, b)` fails with `InvalidArguments` exactly when
`a = b`, and otherwise stores `max(a, b)` above `min(a, b)` (so the stored
top strictly exceeds the stored bottom and construction is commutative);
`FullHouse::new(a, b)` fails exactly when `a = b` and otherwise stores the
arguments unreordered. -/
theorem new_constructors_spec : ∀ a b : Rank,
    TwoPair.new a b =
      (if a = b then
        Except.error
          (PokerError.InvalidArguments "Top rank and bottom rank cannot be equal.")
      else Except.ok ⟨specMaxRank a b, specMinRank a b⟩) ∧
    TwoPair.new a b = TwoPair.new b a ∧
    ((TwoPair.new a b).toOption.all fun tp =>
      decide (tp.bottom_rank.to_u8 < tp.top_rank.to_u8)) = true ∧
    FullHouse.new a b =
      (if a = b then
        Except.error
          (PokerError.InvalidArguments "Top rank and bottom rank cannot be equal.")
      else Except.ok ⟨a, b⟩) := by
  decide

/-! C3: the containment predicate matches the claim's reference predicate. -/

/-- Reference count from the claim: how many of the four concrete cards of
rank `r` are members of the commune (each concrete (suit, rank) card checked
for membership once, so duplicates in the commune are not double-counted). -/
def specCountRank (c : Commune) (r : Rank) : Nat :=
  (Card.get_all_with_rank r).countP fun card => c.cards.contains card

/-- Reference predicate written from the claim's words, case by case. -/
def specContains (c : Commune) : HandValue → Bool
  | .HighCard r => decide (1 ≤ specCountRank c r)
  | .OnePair r => decide (2 ≤ specCountRank c r)
  | .TwoPair tp =>
      decide (2 ≤ specCountRank c tp.top_rank) &&
      decide (2 ≤ specCountRank c tp.bottom_rank)
  | .ThreeOfAKind r => decide (3 ≤ specCountRank c r)
  | .Straight top =>
      if top.to_u8 < 6 then false
      else
        (Rank.iter.filter fun r =>
            decide (top.to_u8 - 4 ≤ r.to_u8) && decide (r.to_u8 ≤ top.to_u8)).all
          fun r => (Card.get_all_with_rank r).any fun card =>
            c.cards.contains card
  | .FullHouse fh =>
      decide (3 ≤ specCountRank c fh.triple) &&
      decide (2 ≤ specCountRank c fh.pair)
  | .FourOfAKind r => decide (4 ≤ specCountRank c r)

lemma foldl_count_eq (cs : List Card) (l : List Card) : ∀ acc : Nat,
    l.foldl (fun acc card => acc + if cs.contains card then 1 else 0) acc =
      acc + l.countP fun card => cs.contains card := by
  induction l with
  | nil => intro acc; simp
  | cons x xs ih =>
      intro acc
      rw [List.foldl_cons, ih, List.countP_cons]
      cases h : cs.contains x
      · simp [h]
      · simp [h]; omega

lemma contains_x_iff (c : Commune) (x : Nat) (r : Rank) :
    c.contains_x_cards_of_rank x r = true ↔ x ≤ specCountRank c r := by
  unfold Commune.contains_x_cards_of_rank specCountRank
  simp only [foldl_count_eq, Nat.zero_add, ge_iff_le, decide_eq_true_eq]

lemma contains_x_eq_decide (c : Commune) (x : Nat) (r : Rank) :
    c.contains_x_cards_of_rank x r = decide (x ≤ specCountRank c r) := by
  rw [Bool.eq_iff_iff, contains_x_iff]
  simp

/-- C3: `contains_hand_value` coincides with the claim's case-wise reference
predicate: rank-count thresholds 1/2/3/4 counted over the four concrete cards
of the rank, conjunction of two rank counts for `TwoPair`, triple-and-pair
conjunction for `FullHouse`, and for `Straight` falsity below Six and
otherwise one card of each of the five consecutive ranks `top-4 .. top`. -/
theorem contains_hand_value_spec (c : Commune) (v : HandValue) :
    c.contains_hand_value v = specContains c v := by
  cases v with
  | HighCard r =>
      simp only [Commune.contains_hand_value, specContains]
      exact contains_x_eq_decide c 1 r
  | OnePair r =>
      simp only [Commune.contains_hand_value, specContains]
      exact contains_x_eq_decide c 2 r
  | TwoPair tp =>
      simp only [Commune.contains_hand_value, specContains]
      rw [contains_x_eq_decide, contains_x_eq_decide]
  | ThreeOfAKind r =>
      simp only [Commune.contains_hand_value, specContains]
      exact contains_x_eq_decide c 3 r
  | FourOfAKind r =>
      simp only [Commune.contains_hand_value, specContains]
      exact contains_x_eq_decide c 4 r
  | FullHouse fh =>
      simp only [Commune.contains_hand_value, specContains]
      rw [contains_x_eq_decide, contains_x_eq_decide]
  | Straight top =>
      simp only [Commune.contains_hand_value, specContains]
      cases top <;> rfl

/-! C10: containment is monotone under adding visible cards. -/

lemma countP_mono_pred {p q : Card → Bool} (h : ∀ x, p x = true → q x = true) :
    ∀ l : List Card, l.countP p ≤ l.countP q := by
  intro l
  induction l with
  | nil => simp
  | cons x xs ih =>
      rw [List.countP_cons, List.countP_cons]
      cases hp : p x
      · cases hq : q x <;> simp [hp, hq] <;> omega
      · rw [h x hp]; simp; omega

lemma specCountRank_mono {c c2 : Commune}
    (hsub : ∀ card, card ∈ c.cards → card ∈ c2.cards) (r : Rank) :
    specCountRank c r ≤ specCountRank c2 r := by
  unfold specCountRank
  apply countP_mono_pred
  intro x hx
  exact List.elem_iff.mpr (hsub x (List.elem_iff.mp hx))

lemma contains_straight_mono {c c2 : Commune}
    (hsub : ∀ card, card ∈ c.cards → card ∈ c2.cards) (top : Rank)
    (h : c.contains_straight top = true) : c2.contains_straight top = true := by
  simp only [Commune.contains_straight] at h ⊢
  rw [List.all_eq_true] at h ⊢
  intro l hl
  have h2 := h l hl
  rw [List.any_eq_true] at h2 ⊢
  obtain ⟨card, hcard, hmem⟩ := h2
  exact ⟨card, hcard, List.elem_iff.mpr (hsub card (List.elem_iff.mp hmem))⟩

/-- C10: for every category, if a commune satisfies it then any commune
containing all of its cards satisfies it too — pooling more hands never
falsifies an already-satisfied category. -/
theorem contains_hand_value_mono (v : HandValue) (c c2 : Commune)
    (hsub : ∀ card, card ∈ c.cards → card ∈ c2.cards)
    (h : c.contains_hand_value v = true) : c2.contains_hand_value v = true := by
  have hx : ∀ x r, c.contains_x_cards_of_rank x r = true →
      c2.contains_x_cards_of_rank x r = true := by
    intro x r hxr
    rw [contains_x_iff] at hxr ⊢
    exact le_trans hxr (specCountRank_mono hsub r)
  cases v with
  | HighCard r =>
      simp only [Commune.contains_hand_value] at h ⊢
      exact hx _ _ h
  | OnePair r =>
      simp only [Commune.contains_hand_value] at h ⊢
      exact hx _ _ h
  | ThreeOfAKind r =>
      simp only [Commune.contains_hand_value] at h ⊢
      exact hx _ _ h
  | FourOfAKind r =>
      simp only [Commune.contains_hand_value] at h ⊢
      exact hx _ _ h
  | TwoPair tp =>
      simp only [Commune.contains_hand_value, Bool.and_eq_true] at h ⊢
      exact ⟨hx _ _ h.1, hx _ _ h.2⟩
  | FullHouse fh =>
      simp only [Commune.contains_hand_value, Bool.and_eq_true] at h ⊢
      exact ⟨hx _ _ h.1, hx _ _ h.2⟩
  | Straight top =>
      simp only [Commune.contains_hand_value] at h ⊢
      by_cases hlt : top.to_u8 < Rank.Six.to_u8
      · rw [if_pos hlt] at h; simp at h
      · rw [if_neg hlt] at h ⊢
        exact contains_straight_mono hsub top h

/-- Witness for C10: a two-Queen commune satisfies `OnePair(Queen)`, so the
three-card extension of it does too (conclusion produced by the monotonicity
theorem at those concrete communes). -/
theorem contains_hand_value_mono_witness :
    (Commune.mk [⟨Suit.Spades, Rank.Queen⟩, ⟨Suit.Hearts, Rank.Queen⟩,
        ⟨Suit.Diamonds, Rank.Jack⟩]).contains_hand_value
      (HandValue.OnePair Rank.Queen) = true :=
  contains_hand_value_mono (HandValue.OnePair Rank.Queen)
    (Commune.mk [⟨Suit.Spades, Rank.Queen⟩, ⟨Suit.Hearts, Rank.Queen⟩])
    (Commune.mk [⟨Suit.Spades, Rank.Queen⟩, ⟨Suit.Hearts, Rank.Queen⟩,
      ⟨Suit.Diamonds, Rank.Jack⟩])
    (by decide)
    (by simp only [Commune.contains_hand_value]; decide)

/-! C6 and C9: probability computations over the exact rational model. -/

lemma descFactorial_le_eleven : ∀ k < 12,
    Nat.descFactorial 52 k ≤ Nat.descFactorial 52 11 := by decide

lemma descFactorial_52_11_lt : Nat.descFactorial 52 11 < usizeMod := by
  rw [usizeMod_eq]; decide

lemma perm_eq_of_k_le {total k : Nat} (hk : k ≤ total) (ht : total ≤ 52)
    (hk11 : k ≤ 11) : Hand.permutation total k = Nat.descFactorial total k := by
  have hW := usizeMod_eq
  have h2 := Nat.descFactorial_le k ht
  have h3 := descFactorial_le_eleven k (by omega)
  have h4 := descFactorial_52_11_lt
  rw [permutation_eq_descFactorial (by omega) hk (by omega)]
  exact Nat.mod_eq_of_lt (by omega)

lemma ratio_mem_unit {m total k : Nat} (hm : m ≤ total) (ht : total ≤ 52)
    (hk11 : k ≤ 11) (hk : k ≤ total) :
    0 ≤ (Hand.permutation m k : ℚ) / (Hand.permutation total k : ℚ) ∧
      (Hand.permutation m k : ℚ) / (Hand.permutation total k : ℚ) ≤ 1 := by
  have hW := usizeMod_eq
  have hden : Hand.permutation total k = Nat.descFactorial total k :=
    perm_eq_of_k_le hk ht hk11
  have hdpos : 0 < Nat.descFactorial total k := descFactorial_pos_of_le hk
  have hnum : Hand.permutation m k ≤ Nat.descFactorial total k := by
    rcases Nat.lt_or_ge m k with hmk | hmk
    · by_cases hk1 : k = m + 1
      · rw [hk1, permutation_succ_self (by omega)]; omega
      · rw [permutation_of_add_two_le (by omega) (by omega)]; omega
    · rw [perm_eq_of_k_le hmk (by omega) hk11]
      exact Nat.descFactorial_le k hm
  have hdposq : (0 : ℚ) < (Hand.permutation total k : ℚ) := by
    rw [hden]; exact_mod_cast hdpos
  constructor
  · exact div_nonneg (Nat.cast_nonneg _) (Nat.cast_nonneg _)
  · rw [div_le_one hdposq, hden]
    exact_mod_cast hnum

lemma prod_one_sub_mem_unit : ∀ l : List ℚ, (∀ q ∈ l, 0 ≤ q ∧ q ≤ 1) →
    0 ≤ (l.map fun q => 1 - q).prod ∧ (l.map fun q => 1 - q).prod ≤ 1 := by
  intro l
  induction l with
  | nil => intro _; norm_num
  | cons x xs ih =>
      intro h
      obtain ⟨hx0, hx1⟩ := h x (List.mem_cons_self x xs)
      obtain ⟨hp0, hp1⟩ := ih fun q hq => h q (List.mem_cons_of_mem x hq)
      rw [List.map_cons, List.prod_cons]
      constructor
      · exact mul_nonneg (by linarith) hp0
      · nlinarith

lemma one_sub_prod_mem_unit (sets : List (Finset Card)) (m total : Nat)
    (hm : m ≤ total) (ht : total ≤ 52)
    (hcard : ∀ s ∈ sets, s.card ≤ 11) (hktotal : ∀ s ∈ sets, s.card ≤ total) :
    0 ≤ 1 - ((sets.map fun cards =>
        (Hand.permutation m cards.card : ℚ) /
          (Hand.permutation total cards.card : ℚ)).map
        fun prob => 1 - prob).prod ∧
      1 - ((sets.map fun cards =>
        (Hand.permutation m cards.card : ℚ) /
          (Hand.permutation total cards.card : ℚ)).map
        fun prob => 1 - prob).prod ≤ 1 := by
  have h := prod_one_sub_mem_unit (sets.map fun cards =>
      (Hand.permutation m cards.card : ℚ) /
        (Hand.permutation total cards.card : ℚ)) ?_
  · exact ⟨by linarith [h.2], by linarith [h.1]⟩
  · intro q hq
    rw [List.mem_map] at hq
    obtain ⟨s, hs, rfl⟩ := hq
    exact ratio_mem_unit hm ht (hcard s hs) (hktotal s hs)

lemma combinations_mem_length (n : Nat) (l : List Card) :
    ∀ c ∈ combinations n l, c.length = n := by
  induction l generalizing n with
  | nil =>
      intro c hc
      cases n with
      | zero => simp [combinations] at hc; simp [hc]
      | succ m => simp [combinations] at hc
  | cons x xs ih =>
      intro c hc
      cases n with
      | zero => simp [combinations] at hc; simp [hc]
      | succ m =>
          simp only [combinations, List.mem_append, List.mem_map] at hc
          rcases hc with ⟨d, hd, rfl⟩ | hc
          · simp [ih m d hd]
          · exact ih (m + 1) c hc

lemma neededSetsAtSizes_mem (cards : List Card) (size : Nat) (rank : Rank)
    (notInHand : List Card) :
    ∀ (js : List Nat) (s : Finset Card),
      s ∈ Hand.neededSetsAtSizes cards size rank notInHand js →
      ∃ i ∈ js, ∃ combo ∈ combinations i notInHand,
        s = (cards ++ combo).toFinset := by
  intro js
  induction js with
  | nil => intro s hs; simp [Hand.neededSetsAtSizes] at hs
  | cons i rest ih =>
      intro s hs
      simp only [Hand.neededSetsAtSizes] at hs
      split at hs
      · obtain ⟨j, hj, combo, hcombo, hs2⟩ := ih s hs
        exact ⟨j, List.mem_cons_of_mem i hj, combo, hcombo, hs2⟩
      · simp only [List.mem_filterMap] at hs
        obtain ⟨combo, hcombo, heq⟩ := hs
        split at heq
        · exact ⟨i, List.mem_cons_self i rest, combo, hcombo,
            (Option.some_inj.mp heq).symm⟩
        · cases heq

lemma needed_sets_card_le (hand : Hand) (size : Nat) (rank : Rank) :
    ∀ s ∈ hand.get_needed_cards_for_rank_hand size rank,
      s.card ≤ hand.cards.length + 4 := by
  intro s hs
  simp only [Hand.get_needed_cards_for_rank_hand] at hs
  obtain ⟨i, hi, combo, hcombo, rfl⟩ :=
    neededSetsAtSizes_mem hand.cards size rank _ _ s hs
  have hlen : combo.length = i := combinations_mem_length i _ combo hcombo
  have hi4 : i ≤ 4 := by
    rw [List.mem_range] at hi
    have h1 := List.length_filter_le (fun c => ! hand.cards.contains c)
      (Card.get_all_with_rank rank)
    have h2 : (Card.get_all_with_rank rank).length = 4 := by
      simp [Card.get_all_with_rank, Suit.iter]
    omega
  calc (hand.cards ++ combo).toFinset.card ≤ (hand.cards ++ combo).length :=
        List.toFinset_card_le _
    _ = hand.cards.length + combo.length := by rw [List.length_append]
    _ ≤ hand.cards.length + 4 := by omega

/-- C9 (amended): for the implemented (rank-count) categories — those on
which the needed-card computation does not panic — a hand of at most 7 cards
and `other_cards_in_play` at most `52 − |hand|` always get a probability in
the closed interval [0, 1].  As stated the claim is false: the original claim
quantifies over every `other_cards_in_play`, and for values exceeding the
remaining-card count the reported probability exceeds 1 (see the
counterexample theorem). -/
theorem calculate_hand_probability_mem_unit (hand : Hand) (v : HandValue)
    (m : Nat) (hlen : hand.cards.length ≤ 7)
    (hm : m ≤ 52 - hand.cards.length)
    (himpl : (hand.get_needed_cards_for_hand_value v).isSome = true) :
    ∃ q, hand.calculate_hand_probability v m = some q ∧ 0 ≤ q ∧ q ≤ 1 := by
  have hW := usizeMod_eq
  have htot : wrapping_sub Deck.full_deck_size hand.cards.length =
      52 - hand.cards.length := by
    have h52 : Deck.full_deck_size = 52 := rfl
    rw [h52, wrapping_sub_eq_of_le (by omega) (by omega)]
  have hcore : ∀ (size : Nat) (rank : Rank),
      0 ≤ 1 - (((hand.get_needed_cards_for_rank_hand size rank).map
          fun cards => (Hand.permutation m cards.card : ℚ) /
            (Hand.permutation
              (wrapping_sub Deck.full_deck_size hand.cards.length)
              cards.card : ℚ)).map fun prob => 1 - prob).prod ∧
        1 - (((hand.get_needed_cards_for_rank_hand size rank).map
          fun cards => (Hand.permutation m cards.card : ℚ) /
            (Hand.permutation
              (wrapping_sub Deck.full_deck_size hand.cards.length)
              cards.card : ℚ)).map fun prob => 1 - prob).prod ≤ 1 := by
    intro size rank
    rw [htot]
    apply one_sub_prod_mem_unit
    · omega
    · omega
    · intro s hs
      have := needed_sets_card_le hand size rank s hs
      omega
    · intro s hs
      have := needed_sets_card_le hand size rank s hs
      omega
  cases v with
  | HighCard r => exact ⟨_, rfl, (hcore 1 r).1, (hcore 1 r).2⟩
  | OnePair r => exact ⟨_, rfl, (hcore 2 r).1, (hcore 2 r).2⟩
  | ThreeOfAKind r => exact ⟨_, rfl, (hcore 3 r).1, (hcore 3 r).2⟩
  | FourOfAKind r => exact ⟨_, rfl, (hcore 4 r).1, (hcore 4 r).2⟩
  | TwoPair tp => simp [Hand.get_needed_cards_for_hand_value] at himpl
  | Straight r => simp [Hand.get_needed_cards_for_hand_value] at himpl
  | FullHouse fh => simp [Hand.get_needed_cards_for_hand_value] at himpl

/-- Witness for C9's amended theorem: a single Ten of Clubs with 11 cards in
play gets a `ThreeOfAKind(Ten)` probability inside [0, 1]. -/
theorem calculate_hand_probability_mem_unit_witness :
    ∃ q, (Hand.mk [⟨Suit.Clubs, Rank.Ten⟩]).calculate_hand_probability
        (HandValue.ThreeOfAKind Rank.Ten) 11 = some q ∧ 0 ≤ q ∧ q ≤ 1 :=
  calculate_hand_probability_mem_unit (Hand.mk [⟨Suit.Clubs, Rank.Ten⟩])
    (HandValue.ThreeOfAKind Rank.Ten) 11 (by decide) (by decide) (by decide)

/-- C9 (counterexample): with a single Ten of Clubs and
`other_cards_in_play = 100` (more than the 51 remaining cards), the reported
probability of `FourOfAKind(Ten)` is `P(100,4)/P(51,4) ≈ 15.69`, far above 1,
so the claimed bound does not hold for every `usize` argument. -/
theorem calculate_hand_probability_gt_one :
    ((Hand.mk [⟨Suit.Clubs, Rank.Ten⟩]).calculate_hand_probability
        (HandValue.FourOfAKind Rank.Ten) 100).getD 0 > 1 := by
  have h : (Hand.mk [⟨Suit.Clubs, Rank.Ten⟩]).get_needed_cards_for_rank_hand
      4 Rank.Ten =
      [[(⟨Suit.Clubs, Rank.Ten⟩ : Card), ⟨Suit.Spades, Rank.Ten⟩,
        ⟨Suit.Hearts, Rank.Ten⟩, ⟨Suit.Diamonds, Rank.Ten⟩].toFinset] := by
    decide
  have c1 : [(⟨Suit.Clubs, Rank.Ten⟩ : Card), ⟨Suit.Spades, Rank.Ten⟩,
      ⟨Suit.Hearts, Rank.Ten⟩, ⟨Suit.Diamonds, Rank.Ten⟩].toFinset.card = 4 := by
    decide
  have w : wrapping_sub Deck.full_deck_size
      (Hand.mk [⟨Suit.Clubs, Rank.Ten⟩]).cards.length = 51 := by decide
  have p1 : Hand.permutation 100 4 = 94109400 := by decide
  have p2 : Hand.permutation 51 4 = 5997600 := by decide
  simp only [Hand.calculate_hand_probability,
    Hand.get_needed_cards_for_hand_value, h, w, List.map_cons, List.map_nil,
    c1, p1, p2, List.prod_cons, List.prod_nil, Option.getD_some]
  norm_num

/-- C6: the probability reported for `ThreeOfAKind(Ten)` from a lone Ten of
Clubs with 11 cards in play is `1 − (1 − P(11,3)/P(51,3))³ ≈ 0.0236`, because
the three needed sets wrongly include the held Ten and so have size 3; it
misses the claimed closed-form value `1 − (1 − P(11,2)/P(51,2))³ ≈ 0.1239` by
about 0.10, far more than the claimed 1e-6 tolerance (the repository's own
regression test asserts the 0.1239 value and fails on this code). -/
theorem calculate_hand_probability_ten_mismatch :
    (Hand.mk [⟨Suit.Clubs, Rank.Ten⟩]).calculate_hand_probability
        (HandValue.ThreeOfAKind Rank.Ten) 11 =
      some (1 - (1 - (990 / 124950 : ℚ)) ^ 3) ∧
    (1 - (1 - (Hand.permutation 11 2 : ℚ) / (Hand.permutation 51 2 : ℚ)) ^ 3) -
        (1 - (1 - (990 / 124950 : ℚ)) ^ 3) >
      1 / 1000000 := by
  have q1 : Hand.permutation 11 2 = 110 := by decide
  have q2 : Hand.permutation 51 2 = 2550 := by decide
  constructor
  · have h : (Hand.mk [⟨Suit.Clubs, Rank.Ten⟩]).get_needed_cards_for_rank_hand
        3 Rank.Ten =
        [[(⟨Suit.Clubs, Rank.Ten⟩ : Card), ⟨Suit.Spades, Rank.Ten⟩,
            ⟨Suit.Hearts, Rank.Ten⟩].toFinset,
          [(⟨Suit.Clubs, Rank.Ten⟩ : Card), ⟨Suit.Spades, Rank.Ten⟩,
            ⟨Suit.Diamonds, Rank.Ten⟩].toFinset,
          [(⟨Suit.Clubs, Rank.Ten⟩ : Card), ⟨Suit.Hearts, Rank.Ten⟩,
            ⟨Suit.Diamonds, Rank.Ten⟩].toFinset] := by decide
    have c1 : [(⟨Suit.Clubs, Rank.Ten⟩ : Card), ⟨Suit.Spades, Rank.Ten⟩,
        ⟨Suit.Hearts, Rank.Ten⟩].toFinset.card = 3 := by decide
    have c2 : [(⟨Suit.Clubs, Rank.Ten⟩ : Card), ⟨Suit.Spades, Rank.Ten⟩,
        ⟨Suit.Diamonds, Rank.Ten⟩].toFinset.card = 3 := by decide
    have c3 : [(⟨Suit.Clubs, Rank.Ten⟩ : Card), ⟨Suit.Hearts, Rank.Ten⟩,
        ⟨Suit.Diamonds, Rank.Ten⟩].toFinset.card = 3 := by decide
    have w : wrapping_sub Deck.full_deck_size
        (Hand.mk [⟨Suit.Clubs, Rank.Ten⟩]).cards.length = 51 := by decide
    have p1 : Hand.permutation 11 3 = 990 := by decide
    have p2 : Hand.permutation 51 3 = 124950 := by decide
    simp only [Hand.calculate_hand_probability,
      Hand.get_needed_cards_for_hand_value, h, w, List.map_cons, List.map_nil,
      c1, c2, c3, p1, p2, List.prod_cons, List.prod_nil]
    norm_num
  · rw [q1, q2]
    norm_num
